import Mathlib

/-!
# Shallow embedding of `bin/git_stats.py` (cytopia/git-stats)

Strings are modelled as `List Char` (`Str`).  The only side-effecting
operation of the core, the underlying `git log` invocation performed by
GitPython inside `_get_git_log`, is modelled as an explicit oracle
(`GitRun`) mapping a repository path and the full argument list to either
raw textual output or a `GitError`.  Every other function of the source is
translated directly: the regex matches of `_get_git_words` and
`_get_git_files_adds_dels` are embedded as character-level scanners whose
semantics coincide with the Python regexes on the patterns actually used
(the character classes at each juncture of those patterns are disjoint, so
greedy matching is deterministic, and `.*`-backtracking amounts to taking
the last, respectively any, feasible start position).
-/

namespace GitStats

/-- Strings, modelled as lists of characters. -/
abbrev Str := List Char

/-- Python `\w` on ASCII input: letters, digits and underscore. -/
def isWordChar (c : Char) : Bool := c.isAlphanum || c == '_'

/-- Python `\s` on ASCII input: space, tab, newline, carriage return,
vertical tab, form feed. -/
def isSpaceChar (c : Char) : Bool :=
  c == ' ' || c == '\t' || c == '\n' || c == '\r' || c == '\x0b' || c == '\x0c'

/-- Case-insensitive character comparison (`re.I` on ASCII input). -/
def lowEq (a b : Char) : Bool := a.toLower == b.toLower

/-- Auxiliary worker for `splitlines` carrying the (reversed) current line. -/
def splitlinesAux (acc : List Char) : List Char → List Str
  | [] => if acc.isEmpty then [] else [acc.reverse]
  | '\r' :: '\n' :: rest => acc.reverse :: splitlinesAux [] rest
  | '\r' :: rest => acc.reverse :: splitlinesAux [] rest
  | '\n' :: rest => acc.reverse :: splitlinesAux [] rest
  | c :: rest => splitlinesAux (c :: acc) rest

/-- Python `str.splitlines()` for the terminators appearing in git output. -/
def splitlines (s : Str) : List Str := splitlinesAux [] s

/-- Auxiliary worker for `splitWs`. -/
def splitWsAux (acc : List Char) : List Char → List Str
  | [] => if acc.isEmpty then [] else [acc.reverse]
  | c :: rest =>
    if isSpaceChar c then
      if acc.isEmpty then splitWsAux [] rest else acc.reverse :: splitWsAux [] rest
    else splitWsAux (c :: acc) rest

/-- Python `str.split()` with no arguments: split on whitespace runs,
discarding empty fields. -/
def splitWs (s : Str) : List Str := splitWsAux [] s

/-- Decimal value of a digit string (Python `int(...)` on the digits
captured by `[0-9]+`). -/
def digitsToNat (ds : Str) : Nat :=
  ds.foldl (fun acc c => acc * 10 + (c.toNat - 48)) 0

/-- Case-insensitive "starts with": does `text` begin with `pat`?
(`pat` is a literal pattern under `re.I`.) -/
def startsWithCI : Str → Str → Bool
  | [], _ => true
  | _ :: _, [] => false
  | p :: ps, c :: cs => lowEq p c && startsWithCI ps cs

/-! ## Churn counter: `_get_git_files_adds_dels`

Each log line is run through `re.match(r'.*(\s+([0-9]+)\s+<kw>)', line, re.I)`
for the keywords `file`, `inser`, `delet`; `group(2)` is the digit run of the
matched occurrence.  Since whitespace, digits and the keyword's first letter
are pairwise disjoint character classes, the attempt at a fixed start
position is deterministic: one-or-more whitespace, then one-or-more digits
(the capture), then one-or-more whitespace, then the keyword, case
insensitively. -/

/-- One attempt of `\s+([0-9]+)\s+<kw>` at the current position, returning
the captured number. -/
def matchStatAt (kw : Str) (l : Str) : Option Nat :=
  let sp1 := l.takeWhile isSpaceChar
  let r1 := l.dropWhile isSpaceChar
  let ds := r1.takeWhile Char.isDigit
  let r2 := r1.dropWhile Char.isDigit
  let sp2 := r2.takeWhile isSpaceChar
  let r3 := r2.dropWhile isSpaceChar
  if sp1.isEmpty || ds.isEmpty || sp2.isEmpty || !(startsWithCI kw r3) then none
  else some (digitsToNat ds)

/-- `re.match(r'.*(\s+([0-9]+)\s+<kw>)', l, re.I)`: the greedy leading `.*`
selects the last feasible start position, so later positions are tried
first. -/
def matchStat (kw : Str) : Str → Option Nat
  | [] => none
  | c :: rest =>
    match matchStat kw rest with
    | some n => some n
    | none => matchStatAt kw (c :: rest)

/-- Keyword of the changed-files pattern. -/
def kwFile : Str := ['f', 'i', 'l', 'e']

/-- Keyword of the insertions pattern. -/
def kwInser : Str := ['i', 'n', 's', 'e', 'r']

/-- Keyword of the deletions pattern. -/
def kwDelet : Str := ['d', 'e', 'l', 'e', 't']

/-- The value a single log line contributes for one metric: the matched
number, or `0` when the line does not match that metric's pattern. -/
def churnValue (kw : Str) (l : Str) : Nat := (matchStat kw l).getD 0

/-- The six counters maintained by `_get_git_files_adds_dels`. -/
structure Churn where
  files : Nat
  adds : Nat
  dels : Nat
  max_files : Nat
  max_adds : Nat
  max_dels : Nat
deriving DecidableEq

/-- The body of the per-line loop of `_get_git_files_adds_dels`: three
independent pattern matches, each adding to its cumulative counter and
updating its per-commit maximum. -/
def churnStep (st : Churn) (line : Str) : Churn :=
  let st :=
    match matchStat kwFile line with
    | some n =>
      { st with files := st.files + n,
                max_files := if n > st.max_files then n else st.max_files }
    | none => st
  let st :=
    match matchStat kwInser line with
    | some n =>
      { st with adds := st.adds + n,
                max_adds := if n > st.max_adds then n else st.max_adds }
    | none => st
  match matchStat kwDelet line with
  | some n =>
    { st with dels := st.dels + n,
              max_dels := if n > st.max_dels then n else st.max_dels }
  | none => st

/-! ## Log extractor: `_get_git_log` -/

/-- The exception type raised by the underlying git library. -/
structure GitError where
  msg : Str

/-- Oracle for the underlying `git log` invocation: repository path and full
argument list to either raw output or a `GitError` (covering both the
`Git(git_path)` construction and the `git.log(...)` call inside the `try`
block). -/
def GitRun := Str → List Str → Except GitError Str

/-- `'--after="' + start_date + '"'`. -/
def afterArg (d : Str) : Str := ("--after=".data ++ ['"']) ++ d ++ ['"']

/-- `'--before="' + end_date + '"'`. -/
def beforeArg (d : Str) : Str := ("--before=".data ++ ['"']) ++ d ++ ['"']

/-- `'--author=' + email`. -/
def authorArg (email : Str) : Str := "--author=".data ++ email

/-- `'--oneline'`. -/
def onelineFlag : Str := "--oneline".data

/-- `'--shortstat'`. -/
def shortstatFlag : Str := "--shortstat".data

/-- `'--format="%H"'`. -/
def formatHashFlag : Str := ("--format=".data ++ ['"']) ++ "%H".data ++ ['"']

/-- `'--format=%cE'`. -/
def committerFlag : Str := "--format=%cE".data

/-- `'--format=%aE'`. -/
def authorFlag : Str := "--format=%aE".data

/-- Python truthiness of an optional date string: `None` and `''` are
falsy. -/
def truthy : Option Str → Bool
  | none => false
  | some s => !s.isEmpty

/-- The date string carried by an optional date (irrelevant when absent). -/
def dateOf : Option Str → Str
  | none => []
  | some s => s

/-- The argument list `_get_git_log` passes to the underlying `git log`:
one of four shapes selected by which date bounds are (truthily) present. -/
def gitLogQuery (s e : Option Str) (args : List Str) : List Str :=
  if truthy s && truthy e then afterArg (dateOf s) :: beforeArg (dateOf e) :: args
  else if truthy s then afterArg (dateOf s) :: args
  else if truthy e then beforeArg (dateOf e) :: args
  else args

/-- `_get_git_log`: run the query; a `GitError` degrades to the empty
string, success returns the raw output. -/
def getGitLog (run : GitRun) (path : Str) (s e : Option Str) (args : List Str) : Str :=
  match run path (gitLogQuery s e args) with
  | .ok out => out
  | .error _ => []

/-- `_get_git_files_adds_dels`: fold the per-line churn step over the
shortstat log lines of every repository path. -/
def getGitFilesAddsDels (run : GitRun) (paths : List Str) (email : Str)
    (s e : Option Str) : Churn :=
  paths.foldl
    (fun st path =>
      (splitlines
        (getGitLog run path s e [authorArg email, onelineFlag, shortstatFlag])).foldl
        churnStep st)
    ⟨0, 0, 0, 0, 0, 0⟩

/-- The shortstat log lines seen by `_get_git_files_adds_dels`, in order,
across all repository paths. -/
def statLines (run : GitRun) (paths : List Str) (email : Str) (s e : Option Str) :
    List Str :=
  (paths.map
    (fun p =>
      splitlines (getGitLog run p s e [authorArg email, onelineFlag, shortstatFlag]))).flatten

/-! ## Keyword counter: `_get_git_words`

Per message line the code applies
`re.match(r'.*\b(<word>)(\b|s|z|d|es|ed|er|rs|ers|or|ors|ing|in|-)?(\b|\\s|-|_|$).*', message, re.I)`
and increments the word's count once when it matches (group 1 is a
mandatory group, so it is never `None` on a match).  For a word that is a
literal consisting of word characters, the regex matches iff at some
position with a word boundary before it the word occurs case-insensitively,
optionally followed by one of the inflection suffixes, followed by a word
boundary, a literal backslash-`s`, a hyphen, an underscore, or the end of
the line.  Backtracking over the leading greedy `.*` tries every start
position, so the embedding is a plain existential scan. -/

/-- Python `\b` at a position: the previous character's word-ness (string
edges count as non-word) differs from the next one's. -/
def boundaryAt (prev : Bool) : Str → Bool
  | [] => prev
  | c :: _ => prev != isWordChar c

/-- Consume the literal pattern `pat` case-insensitively from `text`,
threading the word-ness of the last consumed character; returns the
updated word-ness and the remaining text. -/
def consumeCI : (pat : Str) → (prev : Bool) → (text : Str) → Option (Bool × Str)
  | [], prev, rest => some (prev, rest)
  | _ :: _, _, [] => none
  | p :: ps, _, c :: cs => if lowEq p c then consumeCI ps (isWordChar c) cs else none

/-- The third regex group `(\b|\\s|-|_|$)` at the current position (`prev`
is the word-ness of the preceding character). -/
def group3OK (prev : Bool) : Str → Bool
  | [] => true
  | c :: cs =>
    (prev != isWordChar c) ||
    (c == '\\' && (match cs with | d :: _ => lowEq 's' d | [] => false)) ||
    c == '-' || c == '_'

/-- The inflection suffixes of the second regex group
`(\b|s|z|d|es|ed|er|rs|ers|or|ors|ing|in|-)?` (the `\b` alternative and
skipping the optional group both amount to the empty suffix). -/
def inflections : List Str :=
  [['s'], ['z'], ['d'], ['e', 's'], ['e', 'd'], ['e', 'r'], ['r', 's'],
   ['e', 'r', 's'], ['o', 'r'], ['o', 'r', 's'], ['i', 'n', 'g'], ['i', 'n'], ['-']]

/-- After the word has been consumed: accept the empty suffix or any
inflection suffix, followed by the third group. -/
def matchAfterWord (prev : Bool) (rest : Str) : Bool :=
  group3OK prev rest ||
  inflections.any (fun sfx =>
    match consumeCI sfx prev rest with
    | some (p2, r2) => group3OK p2 r2
    | none => false)

/-- Attempt of `\b(<word>)(suffix)?(end)` at the current position. -/
def wordMatchHere (word : Str) (prev : Bool) (line : Str) : Bool :=
  boundaryAt prev line &&
    match consumeCI word prev line with
    | some (p2, r2) => matchAfterWord p2 r2
    | none => false

/-- Scan of all start positions (the leading greedy `.*` of the regex),
threading the word-ness of the previous character for `\b`. -/
def wordMatchFrom (word : Str) (prev : Bool) : Str → Bool
  | [] => wordMatchHere word prev []
  | c :: cs => wordMatchHere word prev (c :: cs) || wordMatchFrom word (isWordChar c) cs

/-- Does the forgiving keyword regex match this message line? -/
def matchesWord (word line : Str) : Bool := wordMatchFrom word false line

/-! The keyword dictionary is a Python `dict`: an insertion-ordered
association list, assignment overwriting in place. -/

/-- Python `d[k] = v`: overwrite in place, or append a new key. -/
def alSet (k : Str) (v : Nat) : List (Str × Nat) → List (Str × Nat)
  | [] => [(k, v)]
  | (k', v') :: rest => if k' = k then (k', v) :: rest else (k', v') :: alSet k v rest

/-- Python `d[k]` lookup, `None`-valued when the key is absent. -/
def lookupVal (k : Str) : List (Str × Nat) → Option Nat
  | [] => none
  | (k', v') :: rest => if k' = k then some v' else lookupVal k rest

/-- Python `d[k] += 1` (only ever executed on a present key, which the
initialization guarantees; an absent key is left untouched). -/
def alIncr (k : Str) : List (Str × Nat) → List (Str × Nat)
  | [] => []
  | (k', v') :: rest => if k' = k then (k', v' + 1) :: rest else (k', v') :: alIncr k rest

/-- The dictionary set up at the top of `_get_git_words`: every wordlist
entry mapped to `0`. -/
def initWords (wordlist : List Str) : List (Str × Nat) :=
  wordlist.foldl (fun d w => alSet w 0 d) []

/-- Inner loop of `_get_git_words`: bump `w` once for every message line
the forgiving regex matches. -/
def tallyMsgs (w : Str) (msgs : List Str) (d : List (Str × Nat)) : List (Str × Nat) :=
  msgs.foldl (fun d m => if matchesWord w m then alIncr w d else d) d

/-- Middle loop of `_get_git_words`: process every wordlist entry against
one repository's message lines. -/
def tallyPath (wordlist : List Str) (msgs : List Str) (d : List (Str × Nat)) :
    List (Str × Nat) :=
  wordlist.foldl (fun d w => tallyMsgs w msgs d) d

/-- The pure core of `_get_git_words`, over the per-repository message
lines. -/
def wordCounts (wordlist : List Str) (msgsPerPath : List (List Str)) :
    List (Str × Nat) :=
  msgsPerPath.foldl (fun d msgs => tallyPath wordlist msgs d) (initWords wordlist)

/-- `_get_git_words`: count keyword occurrences over the `--oneline` log
of every repository path. -/
def getGitWords (run : GitRun) (paths : List Str) (email : Str) (wordlist : List Str)
    (s e : Option Str) : List (Str × Nat) :=
  wordCounts wordlist
    (paths.map (fun p => splitlines (getGitLog run p s e [authorArg email, onelineFlag])))

/-- The commit-message lines seen by `_get_git_words`, in order, across all
repository paths. -/
def msgLines (run : GitRun) (paths : List Str) (email : Str) (s e : Option Str) :
    List Str :=
  (paths.map (fun p => splitlines (getGitLog run p s e [authorArg email, onelineFlag]))).flatten

/-! ## Commit counter, contributor discovery and aggregation -/

/-- `_get_git_contributor_commit_count`: length of the concatenated hash
lists of every repository path. -/
def getGitContributorCommitCount (run : GitRun) (paths : List Str) (email : Str)
    (s e : Option Str) : Nat :=
  (paths.foldl
    (fun commits path =>
      commits ++ splitlines (getGitLog run path s e [authorArg email, formatHashFlag]))
    []).length

/-- `_get_git_contributor_emails`: per path, the committer and author email
lists are unioned with the accumulator through `list(set(...))`.  A Python
`set` iterates in unspecified order; it is modelled by `List.dedup`, and
only order-independent properties (membership, duplicate-freeness) are
proved about the result. -/
def getGitContributorEmails (run : GitRun) (paths : List Str) (s e : Option Str) :
    List Str :=
  paths.foldl
    (fun contributors path =>
      (splitWs (getGitLog run path s e [authorFlag]) ++
       splitWs (getGitLog run path s e [committerFlag]) ++ contributors).dedup)
    []

/-- One aggregated contributor record of `get_statistics`. -/
structure Stat where
  email : Str
  commits : Nat
  files : Nat
  adds : Nat
  dels : Nat
  max_files : Nat
  max_adds : Nat
  max_dels : Nat
  words : List (Str × Nat)
deriving DecidableEq

/-- `get_statistics`: one record per discovered contributor email. -/
def getStatistics (run : GitRun) (paths : List Str) (s e : Option Str)
    (wordlist : List Str) : List Stat :=
  (getGitContributorEmails run paths s e).map (fun email =>
    let changes := getGitFilesAddsDels run paths email s e
    { email := email
      commits := getGitContributorCommitCount run paths email s e
      files := changes.files
      adds := changes.adds
      dels := changes.dels
      max_files := changes.max_files
      max_adds := changes.max_adds
      max_dels := changes.max_dels
      words := getGitWords run paths email wordlist s e })

/-! ## Reporter: the leaderboard sections of `main` -/

/-- `show_top = 10` in `main`. -/
def showTop : Nat := 10

/-- `sorted(statistics, key=..., reverse=True)`: stable sort, descending in
the metric. -/
def sortDesc (m : Stat → Nat) (stats : List Stat) : List Stat :=
  stats.mergeSort (fun a b => decide (m b ≤ m a))

/-- The emission loop of a leaderboard section:
`for cnt, item in enumerate(by_metric): if metric(item) > 0 and cnt < n: print(...)`. -/
def emitRows (m : Stat → Nat) (n : Nat) : Nat → List Stat → List Stat
  | _, [] => []
  | cnt, r :: rs =>
    if m r > 0 && cnt < n then r :: emitRows m n (cnt + 1) rs
    else emitRows m n (cnt + 1) rs

/-- One leaderboard section: sort descending by the metric, then emit the
rows the loop prints. -/
def leaderboard (m : Stat → Nat) (n : Nat) (stats : List Stat) : List Stat :=
  emitRows m n 0 (sortDesc m stats)

/-- The seven numeric metrics of the seven fixed report sections of
`main`. -/
def metricFuns : List (Stat → Nat) :=
  [Stat.commits, Stat.files, Stat.adds, Stat.dels,
   Stat.max_files, Stat.max_adds, Stat.max_dels]

/-- The metric of a keyword section:
`d['words'][word] if word in d['words'] else 0`. -/
def wordMetric (w : Str) (st : Stat) : Nat := (lookupVal w st.words).getD 0

/-- The always-failing oracle: every underlying query raises a
`GitError`. -/
def failRun : GitRun := fun _ _ => .error ⟨[]⟩

/-! ## Characterization of the churn counter -/

theorem churnStep_spec (st : Churn) (l : Str) :
    churnStep st l =
      Churn.mk (st.files + churnValue kwFile l) (st.adds + churnValue kwInser l)
        (st.dels + churnValue kwDelet l)
        (max st.max_files (churnValue kwFile l)) (max st.max_adds (churnValue kwInser l))
        (max st.max_dels (churnValue kwDelet l)) := by
  rcases hf : matchStat kwFile l with _ | nf <;>
    rcases ha : matchStat kwInser l with _ | na <;>
      rcases hd : matchStat kwDelet l with _ | nd <;>
        simp [churnStep, churnValue, hf, ha, hd, Churn.mk.injEq, Nat.max_def] <;>
          split_ifs <;> omega

theorem churn_foldl_spec (lines : List Str) (st : Churn) :
    lines.foldl churnStep st =
      Churn.mk (st.files + (lines.map (churnValue kwFile)).sum)
        (st.adds + (lines.map (churnValue kwInser)).sum)
        (st.dels + (lines.map (churnValue kwDelet)).sum)
        (max st.max_files ((lines.map (churnValue kwFile)).foldr max 0))
        (max st.max_adds ((lines.map (churnValue kwInser)).foldr max 0))
        (max st.max_dels ((lines.map (churnValue kwDelet)).foldr max 0)) := by
  induction lines generalizing st with
  | nil => simp
  | cons l ls ih =>
    rw [List.foldl_cons, ih, churnStep_spec]
    simp [Churn.mk.injEq, Nat.add_assoc, Nat.max_assoc]

theorem churn_foldl_flatten (L : List (List Str)) (st : Churn) :
    L.foldl (fun st lines => lines.foldl churnStep st) st = L.flatten.foldl churnStep st := by
  induction L generalizing st with
  | nil => rfl
  | cons lines rest ih => simp [List.foldl_append, ih]

/-- Full characterization of `_get_git_files_adds_dels`: each cumulative
counter is the sum of the per-line matched values over all shortstat lines,
each maximum is the pointwise maximum of those values (`0` when no line
matches). -/
theorem churn_spec (run : GitRun) (paths : List Str) (email : Str) (s e : Option Str) :
    getGitFilesAddsDels run paths email s e =
      Churn.mk ((statLines run paths email s e).map (churnValue kwFile)).sum
        ((statLines run paths email s e).map (churnValue kwInser)).sum
        ((statLines run paths email s e).map (churnValue kwDelet)).sum
        (((statLines run paths email s e).map (churnValue kwFile)).foldr max 0)
        (((statLines run paths email s e).map (churnValue kwInser)).foldr max 0)
        (((statLines run paths email s e).map (churnValue kwDelet)).foldr max 0) := by
  unfold getGitFilesAddsDels statLines
  rw [← List.foldl_map
    (fun p => splitlines (getGitLog run p s e [authorArg email, onelineFlag, shortstatFlag]))
    (fun st lines => lines.foldl churnStep st)]
  rw [churn_foldl_flatten, churn_foldl_spec]
  simp

theorem foldr_max_le_sum (ns : List Nat) : ns.foldr max 0 ≤ ns.sum := by
  induction ns with
  | nil => simp
  | cons n ns ih =>
    simp only [List.foldr_cons, List.sum_cons]
    exact max_le (Nat.le_add_right _ _) (ih.trans (Nat.le_add_left _ _))

/-- C1: For every sequence of shortstat log lines, the Churn Counter's
cumulative total for each of the three metrics (files changed, insertions,
deletions) equals the sum of the integer values matched on each line by
that metric's pattern (a non-matching line contributing zero via
`churnValue`), and the per-commit maximum for each metric equals the
largest single-line matched value, or `0` if no line matched that metric's
pattern. -/
theorem churn_totals_eq_sum_and_max (run : GitRun) (paths : List Str) (email : Str)
    (s e : Option Str) :
    getGitFilesAddsDels run paths email s e =
      Churn.mk ((statLines run paths email s e).map (churnValue kwFile)).sum
        ((statLines run paths email s e).map (churnValue kwInser)).sum
        ((statLines run paths email s e).map (churnValue kwDelet)).sum
        (((statLines run paths email s e).map (churnValue kwFile)).foldr max 0)
        (((statLines run paths email s e).map (churnValue kwInser)).foldr max 0)
        (((statLines run paths email s e).map (churnValue kwDelet)).foldr max 0) :=
  churn_spec run paths email s e

/-- C9: Invariant of the Churn Counter: each per-commit maximum never
exceeds the corresponding cumulative total, and all six returned numbers
are non-negative. -/
theorem churn_max_le_total (run : GitRun) (paths : List Str) (email : Str)
    (s e : Option Str) :
    (getGitFilesAddsDels run paths email s e).max_files ≤
        (getGitFilesAddsDels run paths email s e).files ∧
      (getGitFilesAddsDels run paths email s e).max_adds ≤
        (getGitFilesAddsDels run paths email s e).adds ∧
      (getGitFilesAddsDels run paths email s e).max_dels ≤
        (getGitFilesAddsDels run paths email s e).dels ∧
      0 ≤ (getGitFilesAddsDels run paths email s e).files ∧
      0 ≤ (getGitFilesAddsDels run paths email s e).adds ∧
      0 ≤ (getGitFilesAddsDels run paths email s e).dels ∧
      0 ≤ (getGitFilesAddsDels run paths email s e).max_files ∧
      0 ≤ (getGitFilesAddsDels run paths email s e).max_adds ∧
      0 ≤ (getGitFilesAddsDels run paths email s e).max_dels := by
  rw [churn_spec]
  refine ⟨?_, ?_, ?_, ?_, ?_, ?_, ?_, ?_, ?_⟩ <;>
    first
      | exact foldr_max_le_sum _
      | exact Nat.zero_le _

/-! ## Reporter properties -/

theorem emitRows_sublist (m : Stat → Nat) (n : Nat) (l : List Stat) :
    ∀ cnt, List.Sublist (emitRows m n cnt l) l := by
  induction l with
  | nil => intro cnt; simp [emitRows]
  | cons x xs ih =>
    intro cnt
    simp only [emitRows]
    split
    · exact (ih (cnt + 1)).cons₂ x
    · exact (ih (cnt + 1)).cons x

theorem emitRows_pos (m : Stat → Nat) (n : Nat) (l : List Stat) :
    ∀ cnt r, r ∈ emitRows m n cnt l → 0 < m r := by
  induction l with
  | nil => intro cnt r h; simp [emitRows] at h
  | cons x xs ih =>
    intro cnt r h
    simp only [emitRows] at h
    split at h
    · next hcond =>
      rcases List.mem_cons.mp h with rfl | h2
      · exact (Bool.and_eq_true _ _ |>.mp hcond).1 |> of_decide_eq_true
      · exact ih (cnt + 1) r h2
    · exact ih (cnt + 1) r h

theorem emitRows_length (m : Stat → Nat) (n : Nat) (l : List Stat) :
    ∀ cnt, (emitRows m n cnt l).length ≤ n - cnt := by
  induction l with
  | nil => intro cnt; simp [emitRows]
  | cons x xs ih =>
    intro cnt
    simp only [emitRows]
    split
    · next hcond =>
      have h2 : cnt < n := of_decide_eq_true (Bool.and_eq_true _ _ |>.mp hcond).2
      have := ih (cnt + 1)
      simp only [List.length_cons]
      omega
    · exact (ih (cnt + 1)).trans (by omega)

theorem sortDesc_pairwise (m : Stat → Nat) (stats : List Stat) :
    List.Pairwise (fun a b => m b ≤ m a) (sortDesc m stats) := by
  have h := @List.sorted_mergeSort Stat (fun a b => decide (m b ≤ m a))
    (fun a b c hab hbc => by
      simp only [decide_eq_true_iff] at hab hbc ⊢; omega)
    (fun a b => by simpa using Nat.le_total (m b) (m a))
    stats
  exact h.imp (fun hab => of_decide_eq_true hab)

/-- C2: every leaderboard section (any metric, any cutoff `n`; the code
uses `showTop = 10` and the seven metrics of `metricFuns` plus `wordMetric`
for keyword sections) emits rows in descending metric order, only rows with
metric value strictly greater than zero, and at most `n` rows. -/
theorem leaderboard_desc_pos_top (m : Stat → Nat) (n : Nat) (stats : List Stat) :
    List.Pairwise (fun a b => m b ≤ m a) (leaderboard m n stats) ∧
      (∀ r, r ∈ leaderboard m n stats → 0 < m r) ∧
      (leaderboard m n stats).length ≤ n := by
  refine ⟨?_, ?_, ?_⟩
  · exact List.Pairwise.sublist (emitRows_sublist m n (sortDesc m stats) 0)
      (sortDesc_pairwise m stats)
  · exact fun r h => emitRows_pos m n (sortDesc m stats) 0 r h
  · simpa using emitRows_length m n (sortDesc m stats) 0

/-- Witness for C2 at the commit-count metric, the default cutoff and a
concrete record list. -/
theorem leaderboard_desc_pos_top_witness :
    List.Pairwise (fun a b => Stat.commits b ≤ Stat.commits a)
        (leaderboard Stat.commits showTop []) ∧
      (∀ r, r ∈ leaderboard Stat.commits showTop [] → 0 < Stat.commits r) ∧
      (leaderboard Stat.commits showTop []).length ≤ showTop :=
  leaderboard_desc_pos_top Stat.commits showTop []

/-! ## Dictionary lemmas for the keyword counter -/

theorem lookupVal_alSet_self (k : Str) (v : Nat) (d : List (Str × Nat)) :
    lookupVal k (alSet k v d) = some v := by
  induction d with
  | nil => simp [alSet, lookupVal]
  | cons p rest ih =>
    obtain ⟨a, b⟩ := p
    by_cases h : a = k <;> simp [alSet, lookupVal, h, ih]

theorem lookupVal_alSet_ne (k k' : Str) (v : Nat) (d : List (Str × Nat)) (h : k' ≠ k) :
    lookupVal k' (alSet k v d) = lookupVal k' d := by
  induction d with
  | nil => simp [alSet, lookupVal, Ne.symm h]
  | cons p rest ih =>
    obtain ⟨a, b⟩ := p
    by_cases hak : a = k
    · subst hak; simp [alSet, lookupVal, Ne.symm h]
    · simp [alSet, lookupVal, hak, ih]

theorem lookupVal_alIncr_self (k : Str) (d : List (Str × Nat)) :
    lookupVal k (alIncr k d) = (lookupVal k d).map (fun v => v + 1) := by
  induction d with
  | nil => simp [alIncr, lookupVal]
  | cons p rest ih =>
    obtain ⟨a, b⟩ := p
    by_cases h : a = k <;> simp [alIncr, lookupVal, h, ih]

theorem lookupVal_alIncr_ne (k k' : Str) (d : List (Str × Nat)) (h : k' ≠ k) :
    lookupVal k' (alIncr k d) = lookupVal k' d := by
  induction d with
  | nil => simp [alIncr, lookupVal]
  | cons p rest ih =>
    obtain ⟨a, b⟩ := p
    by_cases hak : a = k
    · subst hak; simp [alIncr, lookupVal, Ne.symm h]
    · simp [alIncr, lookupVal, hak, ih]

theorem lookupVal_foldl_alSet_not_mem (wl : List Str) (w : Str) :
    ∀ d, w ∉ wl →
      lookupVal w (wl.foldl (fun d x => alSet x 0 d) d) = lookupVal w d := by
  induction wl with
  | nil => intro d _; rfl
  | cons x xs ih =>
    intro d h
    simp only [List.foldl_cons]
    rw [ih _ (fun hx => h (List.mem_cons_of_mem _ hx)),
      lookupVal_alSet_ne _ _ _ _ (fun hx => h (by rw [hx]; exact List.mem_cons_self _ _))]

theorem lookupVal_initWords (wl : List Str) (w : Str) (h : w ∈ wl) :
    lookupVal w (initWords wl) = some 0 := by
  have main : ∀ (l : List Str) (d : List (Str × Nat)), w ∈ l →
      lookupVal w (l.foldl (fun d x => alSet x 0 d) d) = some 0 := by
    intro l
    induction l with
    | nil => intro d h; cases h
    | cons x xs ih =>
      intro d hx
      simp only [List.foldl_cons]
      by_cases hmem : w ∈ xs
      · exact ih _ hmem
      · have hwx : w = x := by
          rcases List.mem_cons.mp hx with h1 | h2
          · exact h1
          · exact absurd h2 hmem
        subst hwx
        rw [lookupVal_foldl_alSet_not_mem xs w _ hmem, lookupVal_alSet_self]
  exact main wl [] h

theorem tallyMsgs_nil (w : Str) (d : List (Str × Nat)) : tallyMsgs w [] d = d := rfl

theorem tallyMsgs_cons (w : Str) (msg : Str) (ms : List Str) (d : List (Str × Nat)) :
    tallyMsgs w (msg :: ms) d =
      tallyMsgs w ms (if matchesWord w msg then alIncr w d else d) := rfl

theorem lookupVal_tallyMsgs_self (w : Str) (msgs : List Str) :
    ∀ d, lookupVal w (tallyMsgs w msgs d) =
      (lookupVal w d).map (fun v => v + msgs.countP (fun m => matchesWord w m)) := by
  induction msgs with
  | nil =>
    intro d
    rw [tallyMsgs_nil]
    cases hL : lookupVal w d <;> simp [hL]
  | cons msg ms ih =>
    intro d
    rw [tallyMsgs_cons]
    by_cases hm : matchesWord w msg
    · rw [if_pos hm, ih, lookupVal_alIncr_self]
      cases hL : lookupVal w d <;> simp [hL, List.countP_cons, hm]
      omega
    · rw [if_neg hm, ih]
      cases hL : lookupVal w d <;> simp [hL, List.countP_cons, hm]

theorem lookupVal_tallyMsgs_ne (w w' : Str) (msgs : List Str) (h : w' ≠ w) :
    ∀ d, lookupVal w' (tallyMsgs w msgs d) = lookupVal w' d := by
  induction msgs with
  | nil => intro d; rfl
  | cons msg ms ih =>
    intro d
    rw [tallyMsgs_cons]
    by_cases hm : matchesWord w msg
    · rw [if_pos hm, ih, lookupVal_alIncr_ne _ _ _ h]
    · rw [if_neg hm, ih]

theorem tallyPath_cons (x : Str) (xs : List Str) (msgs : List Str) (d : List (Str × Nat)) :
    tallyPath (x :: xs) msgs d = tallyPath xs msgs (tallyMsgs x msgs d) := rfl

theorem lookupVal_tallyPath_not_mem (wl : List Str) (w : Str) (msgs : List Str) :
    ∀ d, w ∉ wl → lookupVal w (tallyPath wl msgs d) = lookupVal w d := by
  induction wl with
  | nil => intro d _; rfl
  | cons x xs ih =>
    intro d h
    rw [tallyPath_cons, ih _ (fun hx => h (List.mem_cons_of_mem _ hx)),
      lookupVal_tallyMsgs_ne x w msgs (fun hx => h (by rw [hx]; exact List.mem_cons_self _ _))]

theorem lookupVal_tallyPath_self (wl : List Str) (w : Str) (msgs : List Str) :
    ∀ d, wl.Nodup → w ∈ wl →
      lookupVal w (tallyPath wl msgs d) =
        (lookupVal w d).map (fun v => v + msgs.countP (fun m => matchesWord w m)) := by
  induction wl with
  | nil => intro d _ h; cases h
  | cons x xs ih =>
    intro d hnd hw
    rw [tallyPath_cons]
    by_cases hmem : w ∈ xs
    · have hxw : w ≠ x := by
        intro hx
        subst hx
        exact (List.nodup_cons.mp hnd).1 hmem
      rw [ih _ (List.nodup_cons.mp hnd).2 hmem, lookupVal_tallyMsgs_ne x w msgs hxw]
    · have hwx : w = x := by
        rcases List.mem_cons.mp hw with h1 | h2
        · exact h1
        · exact absurd h2 hmem
      subst hwx
      rw [lookupVal_tallyPath_not_mem xs w msgs _ (List.nodup_cons.mp hnd).1]
      exact lookupVal_tallyMsgs_self w msgs d

theorem lookupVal_foldl_tallyPath (wl : List Str) (hn : wl.Nodup) (w : Str) (hw : w ∈ wl)
    (mpp : List (List Str)) :
    ∀ d, lookupVal w (mpp.foldl (fun d msgs => tallyPath wl msgs d) d) =
      (lookupVal w d).map (fun v => v + mpp.flatten.countP (fun m => matchesWord w m)) := by
  induction mpp with
  | nil =>
    intro d
    cases hL : lookupVal w d <;> simp [hL]
  | cons msgs rest ih =>
    intro d
    simp only [List.foldl_cons]
    rw [ih, lookupVal_tallyPath_self wl w msgs d hn hw]
    cases hL : lookupVal w d <;> simp [hL, List.countP_append]
    omega

theorem lookupVal_wordCounts (wl : List Str) (hn : wl.Nodup) (w : Str) (hw : w ∈ wl)
    (mpp : List (List Str)) :
    lookupVal w (wordCounts wl mpp) =
      some (mpp.flatten.countP (fun m => matchesWord w m)) := by
  unfold wordCounts
  rw [lookupVal_foldl_tallyPath wl hn w hw mpp (initWords wl), lookupVal_initWords wl w hw]
  simp

/-- The keyword `fix`. -/
def wordFix : Str := ['f', 'i', 'x']

/-- A concrete oracle answering every query with the three scenario commit
message lines. -/
def runA : GitRun := fun _ _ => .ok "Fix bug\nfixes typo\nrefactor".data

/-- C3: for every keyword of a (duplicate-free, as the wordlist is an
ordered set) wordlist, the count `_get_git_words` reports is exactly the
number of commit-message lines qualifying under the forgiving regex match
(`matchesWord`): each qualifying line contributes exactly one — even when
the keyword occurs several times inside that line — and a non-qualifying
line contributes zero. -/
theorem keyword_count_counts_matching_lines (run : GitRun) (paths : List Str) (email : Str)
    (wordlist : List Str) (s e : Option Str) (w : Str)
    (hn : wordlist.Nodup) (hw : w ∈ wordlist) :
    lookupVal w (getGitWords run paths email wordlist s e) =
      some ((msgLines run paths email s e).countP (fun m => matchesWord w m)) :=
  lookupVal_wordCounts wordlist hn w hw
    (paths.map (fun p => splitlines (getGitLog run p s e [authorArg email, onelineFlag])))

/-- Witness for C3 at a concrete oracle, wordlist and keyword. -/
theorem keyword_count_counts_matching_lines_witness :
    lookupVal wordFix (getGitWords runA [['p']] "a@x.com".data [wordFix] none none) =
      some ((msgLines runA [['p']] "a@x.com".data none none).countP
        (fun m => matchesWord wordFix m)) :=
  keyword_count_counts_matching_lines runA [['p']] "a@x.com".data [wordFix] none none wordFix
    (by decide) (by decide)

/-- C4: keyword counts are monotonic in the qualifying messages: appending
one further message line that qualifies for keyword `w` raises `w`'s count
by exactly one, and the count of any keyword for which the appended line
does not qualify is unchanged. -/
theorem keyword_count_monotone (wordlist : List Str) (w : Str) (msgs : List Str) (m : Str)
    (hn : wordlist.Nodup) (hw : w ∈ wordlist) :
    (matchesWord w m = true →
      lookupVal w (wordCounts wordlist [msgs ++ [m]]) =
        (lookupVal w (wordCounts wordlist [msgs])).map (fun c => c + 1)) ∧
    (∀ w', w' ∈ wordlist → matchesWord w' m = false →
      lookupVal w' (wordCounts wordlist [msgs ++ [m]]) =
        lookupVal w' (wordCounts wordlist [msgs])) := by
  constructor
  · intro hm
    rw [lookupVal_wordCounts wordlist hn w hw, lookupVal_wordCounts wordlist hn w hw]
    simp [List.countP_append, List.countP_cons, hm]
  · intro w' hw' hm
    rw [lookupVal_wordCounts wordlist hn w' hw', lookupVal_wordCounts wordlist hn w' hw']
    simp [List.countP_append, List.countP_cons, hm]

/-- Witness for C4: the qualifying line `"Fix bug"` raises the count of
`fix` from the empty message list by exactly one. -/
theorem keyword_count_monotone_witness :
    lookupVal wordFix (wordCounts [wordFix] [([] : List Str) ++ ["Fix bug".data]]) =
      (lookupVal wordFix (wordCounts [wordFix] [([] : List Str)])).map (fun c => c + 1) :=
  (keyword_count_monotone [wordFix] wordFix [] "Fix bug".data (by decide) (by decide)).1
    (by decide)

/-- C8: scenario — wordlist `["fix"]`, commit messages `"Fix bug"`,
`"fixes typo"`, `"refactor"` for one author (the oracle answers the
author-restricted `--oneline` query with those three lines): the reported
count for `fix` is `2`. -/
theorem scenario_fix_count_two :
    lookupVal wordFix (getGitWords runA [['p']] "a@x.com".data [wordFix] none none) =
      some 2 := by
  decide

/-! ## Log extractor properties -/

theorem statLines_failRun (paths : List Str) (email : Str) (s e : Option Str) :
    statLines failRun paths email s e = [] := by
  unfold statLines
  rw [List.flatten_eq_nil_iff]
  intro l hl
  rcases List.mem_map.mp hl with ⟨p, _, rfl⟩
  rfl

theorem commitCount_failRun (paths : List Str) (email : Str) (s e : Option Str) :
    getGitContributorCommitCount failRun paths email s e = 0 := by
  unfold getGitContributorCommitCount
  have h : ∀ (acc : List Str),
      paths.foldl
        (fun commits path =>
          commits ++ splitlines (getGitLog failRun path s e [authorArg email, formatHashFlag]))
        acc = acc := by
    induction paths with
    | nil => intro acc; rfl
    | cons p ps ih =>
      intro acc
      simp only [List.foldl_cons]
      have hsp : splitlines (getGitLog failRun p s e [authorArg email, formatHashFlag]) =
          [] := rfl
      rw [hsp, List.append_nil, ih]
  rw [h]
  rfl

theorem tallyPath_nil_msgs (wl : List Str) : ∀ d, tallyPath wl [] d = d := by
  induction wl with
  | nil => intro d; rfl
  | cons x xs ih => intro d; rw [tallyPath_cons]; exact ih d

theorem foldl_tallyPath_all_empty (wl : List Str) (mpp : List (List Str)) :
    (∀ msgs ∈ mpp, msgs = []) →
      ∀ d, mpp.foldl (fun d msgs => tallyPath wl msgs d) d = d := by
  induction mpp with
  | nil => intro _ d; rfl
  | cons msgs rest ih =>
    intro h d
    simp only [List.foldl_cons]
    have hm : msgs = [] := h msgs (List.mem_cons_self _ _)
    rw [hm, tallyPath_nil_msgs, ih (fun x hx => h x (List.mem_cons_of_mem _ hx))]

/-- C5: the Log Extractor never raises: when the underlying query fails
for any reason (`GitError`) it returns the empty string, otherwise the
query's raw output; and downstream parsers treat the empty result as zero
contribution (zero churn, zero commits, all keyword counts zero, shown for
the always-failing oracle). -/
theorem git_log_never_raises (run : GitRun) (path : Str) (s e : Option Str)
    (args : List Str) :
    (∀ err, run path (gitLogQuery s e args) = .error err →
      getGitLog run path s e args = []) ∧
      (∀ out, run path (gitLogQuery s e args) = .ok out →
        getGitLog run path s e args = out) ∧
      (∀ paths email, getGitFilesAddsDels failRun paths email s e =
        Churn.mk 0 0 0 0 0 0) ∧
      (∀ paths email, getGitContributorCommitCount failRun paths email s e = 0) ∧
      (∀ paths email wordlist w, w ∈ wordlist →
        lookupVal w (getGitWords failRun paths email wordlist s e) = some 0) := by
  refine ⟨?_, ?_, ?_, ?_, ?_⟩
  · intro err h; unfold getGitLog; rw [h]
  · intro out h; unfold getGitLog; rw [h]
  · intro paths email
    rw [churn_spec, statLines_failRun]
    rfl
  · intro paths email
    exact commitCount_failRun paths email s e
  · intro paths email wordlist w hw
    show lookupVal w (wordCounts wordlist _) = some 0
    unfold wordCounts
    rw [foldl_tallyPath_all_empty wordlist _
      (fun msgs hm => by rcases List.mem_map.mp hm with ⟨p, _, rfl⟩; rfl)
      (initWords wordlist)]
    exact lookupVal_initWords wordlist w hw

/-- Witness for C5: a concretely failing query returns the empty string. -/
theorem git_log_never_raises_witness :
    getGitLog failRun ['p'] none none [] = [] :=
  (git_log_never_raises failRun ['p'] none none []).1 ⟨[]⟩ rfl

/-- C6: the Log Extractor issues exactly one of four mutually exclusive
query shapes, selected by which date bounds are (truthily) present: both
an after-bound and a before-bound, only an after-bound, only a
before-bound, or no date bounds.  The four guards are pairwise exclusive
and exhaustive, so exactly one branch applies to any pair of bounds. -/
theorem git_log_four_query_shapes (s e : Option Str) (args : List Str) :
    (truthy s = true → truthy e = true →
      gitLogQuery s e args = afterArg (dateOf s) :: beforeArg (dateOf e) :: args) ∧
      (truthy s = true → truthy e = false →
        gitLogQuery s e args = afterArg (dateOf s) :: args) ∧
      (truthy s = false → truthy e = true →
        gitLogQuery s e args = beforeArg (dateOf e) :: args) ∧
      (truthy s = false → truthy e = false → gitLogQuery s e args = args) := by
  refine ⟨?_, ?_, ?_, ?_⟩ <;> intro hs he <;> simp [gitLogQuery, hs, he]

/-- Witness for C6: with only a start bound present, only the after-bound
is issued. -/
theorem git_log_four_query_shapes_witness :
    gitLogQuery (some "2019-01-01".data) none [] =
      afterArg (dateOf (some "2019-01-01".data)) :: [] :=
  (git_log_four_query_shapes (some "2019-01-01".data) none []).2.1 (by decide) (by decide)

/-! ## Contributor discovery and aggregation -/

theorem mem_foldl_contrib (run : GitRun) (s e : Option Str) (paths : List Str) :
    ∀ acc em,
      em ∈ paths.foldl
          (fun contributors path =>
            (splitWs (getGitLog run path s e [authorFlag]) ++
              splitWs (getGitLog run path s e [committerFlag]) ++ contributors).dedup)
          acc ↔
        em ∈ acc ∨ ∃ p, p ∈ paths ∧
          (em ∈ splitWs (getGitLog run p s e [committerFlag]) ∨
            em ∈ splitWs (getGitLog run p s e [authorFlag])) := by
  induction paths with
  | nil => intro acc em; simp
  | cons p ps ih =>
    intro acc em
    simp only [List.foldl_cons]
    rw [ih]
    simp only [List.mem_dedup, List.mem_append, List.mem_cons]
    constructor
    · rintro (((ha | hc) | hacc) | ⟨q, hq, hm⟩)
      · exact Or.inr ⟨p, Or.inl rfl, Or.inr ha⟩
      · exact Or.inr ⟨p, Or.inl rfl, Or.inl hc⟩
      · exact Or.inl hacc
      · exact Or.inr ⟨q, Or.inr hq, hm⟩
    · rintro (hacc | ⟨q, hq | hq, hm⟩)
      · exact Or.inl (Or.inr hacc)
      · subst hq
        rcases hm with hc | ha
        · exact Or.inl (Or.inl (Or.inr hc))
        · exact Or.inl (Or.inl (Or.inl ha))
      · exact Or.inr ⟨q, hq, hm⟩

theorem nodup_foldl_contrib (run : GitRun) (s e : Option Str) (paths : List Str) :
    ∀ acc : List Str, acc.Nodup →
      (paths.foldl
        (fun contributors path =>
          (splitWs (getGitLog run path s e [authorFlag]) ++
            splitWs (getGitLog run path s e [committerFlag]) ++ contributors).dedup)
        acc).Nodup := by
  induction paths with
  | nil => intro acc h; exact h
  | cons p ps ih => intro acc _; exact ih _ (List.nodup_dedup _)

/-- C7: contributor discovery returns the deduplicated union of
committer-email and author-email output across all repositories (every
email occurring in any repository's output appears; no email appears
twice), and the Aggregator builds exactly one record per discovered
contributor, in the discovered order. -/
theorem contributor_discovery_union_nodup (run : GitRun) (paths : List Str)
    (s e : Option Str) (wordlist : List Str) :
    (∀ em, em ∈ getGitContributorEmails run paths s e ↔
      ∃ p, p ∈ paths ∧
        (em ∈ splitWs (getGitLog run p s e [committerFlag]) ∨
          em ∈ splitWs (getGitLog run p s e [authorFlag]))) ∧
      (getGitContributorEmails run paths s e).Nodup ∧
      (getStatistics run paths s e wordlist).map Stat.email =
        getGitContributorEmails run paths s e := by
  refine ⟨?_, ?_, ?_⟩
  · intro em
    unfold getGitContributorEmails
    rw [mem_foldl_contrib]
    simp
  · exact nodup_foldl_contrib run s e paths [] List.nodup_nil
  · unfold getStatistics
    rw [List.map_map]
    exact List.map_id'' (fun _ => rfl) _

/-- Witness for C7: one record per discovered contributor at a concrete
oracle. -/
theorem contributor_discovery_union_nodup_witness :
    (getStatistics runA [['p']] none none [wordFix]).map Stat.email =
      getGitContributorEmails runA [['p']] none none :=
  (contributor_discovery_union_nodup runA [['p']] none none [wordFix]).2.2

/-! ## Key set of the keyword dictionary -/

theorem mem_keys_alSet (k : Str) (v : Nat) (d : List (Str × Nat)) (w : Str) :
    w ∈ (alSet k v d).map Prod.fst ↔ w = k ∨ w ∈ d.map Prod.fst := by
  induction d with
  | nil => simp [alSet]
  | cons p rest ih =>
    obtain ⟨a, b⟩ := p
    by_cases h : a = k
    · subst h
      simp [alSet]
    · simp only [alSet, if_neg h, List.map_cons, List.mem_cons, ih]
      tauto

theorem nodup_keys_alSet (k : Str) (v : Nat) (d : List (Str × Nat)) :
    (d.map Prod.fst).Nodup → ((alSet k v d).map Prod.fst).Nodup := by
  induction d with
  | nil => intro _; simp [alSet]
  | cons p rest ih =>
    obtain ⟨a, b⟩ := p
    intro h
    simp only [List.map_cons] at h
    rcases List.nodup_cons.mp h with ⟨ha, hrest⟩
    by_cases hk : a = k
    · subst hk
      simpa [alSet] using h
    · simp only [alSet, if_neg hk, List.map_cons]
      refine List.nodup_cons.mpr ⟨?_, ih hrest⟩
      intro hmem
      rcases (mem_keys_alSet k v rest a).mp hmem with h1 | h2
      · exact hk h1
      · exact ha h2

theorem keys_alIncr (k : Str) (d : List (Str × Nat)) :
    (alIncr k d).map Prod.fst = d.map Prod.fst := by
  induction d with
  | nil => rfl
  | cons p rest ih =>
    obtain ⟨a, b⟩ := p
    by_cases h : a = k <;> simp [alIncr, h, ih]

theorem keys_tallyMsgs (w : Str) (msgs : List Str) :
    ∀ d, (tallyMsgs w msgs d).map Prod.fst = d.map Prod.fst := by
  induction msgs with
  | nil => intro d; rfl
  | cons msg ms ih =>
    intro d
    rw [tallyMsgs_cons]
    by_cases hm : matchesWord w msg
    · rw [if_pos hm, ih, keys_alIncr]
    · rw [if_neg hm, ih]

theorem keys_tallyPath (wl : List Str) (msgs : List Str) :
    ∀ d, (tallyPath wl msgs d).map Prod.fst = d.map Prod.fst := by
  induction wl with
  | nil => intro d; rfl
  | cons x xs ih => intro d; rw [tallyPath_cons, ih, keys_tallyMsgs]

theorem keys_wordCounts (wl : List Str) (mpp : List (List Str)) :
    (wordCounts wl mpp).map Prod.fst = (initWords wl).map Prod.fst := by
  unfold wordCounts
  have h : ∀ d, ((mpp.foldl (fun d msgs => tallyPath wl msgs d) d).map Prod.fst) =
      d.map Prod.fst := by
    induction mpp with
    | nil => intro d; rfl
    | cons msgs rest ih =>
      intro d
      simp only [List.foldl_cons]
      rw [ih, keys_tallyPath]
  exact h _

theorem mem_keys_initFold (wl : List Str) (w : Str) :
    ∀ d, (w ∈ (wl.foldl (fun d x => alSet x 0 d) d).map Prod.fst ↔
      w ∈ d.map Prod.fst ∨ w ∈ wl) := by
  induction wl with
  | nil => intro d; simp
  | cons x xs ih =>
    intro d
    simp only [List.foldl_cons, List.mem_cons]
    rw [ih, mem_keys_alSet]
    tauto

theorem nodup_keys_initFold (wl : List Str) :
    ∀ d, (d.map Prod.fst).Nodup →
      ((wl.foldl (fun d x => alSet x 0 d) d).map Prod.fst).Nodup := by
  induction wl with
  | nil => intro d h; exact h
  | cons x xs ih => intro d h; exact ih _ (nodup_keys_alSet x 0 d h)

theorem lookupVal_isSome_iff (k : Str) (d : List (Str × Nat)) :
    (lookupVal k d).isSome = true ↔ k ∈ d.map Prod.fst := by
  induction d with
  | nil => simp [lookupVal]
  | cons p rest ih =>
    obtain ⟨a, b⟩ := p
    by_cases h : a = k
    · subst h; simp [lookupVal]
    · simp [lookupVal, h, Ne.symm h, ih]

/-- C10: every record produced by the Aggregator has a keyword mapping
whose key set is exactly the configured wordlist (every keyword
initialized, no extra keys, no duplicate keys), so the Reporter's
unguarded per-keyword lookup of a configured keyword is always defined. -/
theorem words_keys_exactly_wordlist (run : GitRun) (paths : List Str) (s e : Option Str)
    (wordlist : List Str) (st : Stat)
    (hst : st ∈ getStatistics run paths s e wordlist) :
    ((st.words.map Prod.fst).Nodup ∧
      (∀ w, w ∈ st.words.map Prod.fst ↔ w ∈ wordlist)) ∧
      ∀ w, w ∈ wordlist → (lookupVal w st.words).isSome = true := by
  rcases List.mem_map.mp hst with ⟨email, _, rfl⟩
  have hwords :
      (getGitWords run paths email wordlist s e).map Prod.fst =
        (initWords wordlist).map Prod.fst :=
    keys_wordCounts wordlist _
  have hmem : ∀ w, w ∈ (getGitWords run paths email wordlist s e).map Prod.fst ↔
      w ∈ wordlist := by
    intro w
    rw [hwords]
    have h := mem_keys_initFold wordlist w []
    simpa [initWords] using h
  refine ⟨⟨?_, ?_⟩, ?_⟩
  · show ((getGitWords run paths email wordlist s e).map Prod.fst).Nodup
    rw [hwords]
    exact nodup_keys_initFold wordlist [] (by simp)
  · exact hmem
  · intro w hw
    show (lookupVal w (getGitWords run paths email wordlist s e)).isSome = true
    rw [lookupVal_isSome_iff]
    exact (hmem w).mpr hw

/-- A concrete oracle whose every query returns one contributor email. -/
def runB : GitRun := fun _ _ => .ok "a@x".data

/-- The first (and only) record aggregated from `runB`. -/
def statB : Stat :=
  (getStatistics runB [['p']] none none [wordFix]).headD ⟨[], 0, 0, 0, 0, 0, 0, 0, []⟩

/-- Witness for C10: the keyword lookup on a concrete aggregated record is
defined. -/
theorem words_keys_exactly_wordlist_witness :
    (lookupVal wordFix statB.words).isSome = true :=
  (words_keys_exactly_wordlist runB [['p']] none none [wordFix] statB
    (by decide)).2 wordFix (by decide)

end GitStats
